import Mathlib

/-!
Verification development for the `latency_logger` repository.

The scheduling engine (`src/latency_logger/scheduler.py`), the grouped
programme computation (`src/latency_logger/__init__.py`), the configuration
parser, and the worker loop (`src/latency_logger/worker.py`) are embedded
shallowly below.  Instants are modelled as natural numbers of seconds
(Python `datetime` / `timedelta` arithmetic at second granularity), and
code that raises exceptions is modelled with `Except`/`Option`.

Python's `sorted`/`list.sort` is modelled by `List.insertionSort` over the
relevant lexicographic order.  All orders used by the source are
antisymmetric total orders (tuples of naturals and strings), so equal
elements are literally identical and every comparison sort produces the
same output list; stability is therefore unobservable and the choice of
insertion sort is without loss of fidelity.
-/

namespace LatencyLogger

/-- Model of `Job` from `scheduler.py`: a frozen, ordered dataclass with
fields `delay` (a `timedelta`, modelled in whole seconds) and `command`
(a URL).  The derived dataclass order compares `(delay, command)`
lexicographically. -/
structure Job where
  delay : Nat
  command : String
deriving DecidableEq, Repr

/-- The total order on `Job` generated by `@dataclass(order=True)`:
`delay` ascending, then `command` ascending. -/
def Job.le (a b : Job) : Prop :=
  a.delay < b.delay ∨ (a.delay = b.delay ∧ a.command ≤ b.command)

theorem Job.le_iff {a b : Job} :
    Job.le a b ↔ a.delay < b.delay ∨ (a.delay = b.delay ∧ a.command ≤ b.command) :=
  Iff.rfl

instance : DecidableRel Job.le := fun a b => by
  unfold Job.le; infer_instance

/-- A schedule entry: Python's tuple `(deadline, job)`. -/
abbrev Entry := Nat × Job

/-- Python tuple comparison on `(datetime, Job)` pairs: deadline first,
ties broken by the `Job` order. -/
def entryLe (a b : Entry) : Prop :=
  a.1 < b.1 ∨ (a.1 = b.1 ∧ Job.le a.2 b.2)

theorem entryLe_iff {a b : Entry} :
    entryLe a b ↔ a.1 < b.1 ∨ (a.1 = b.1 ∧ Job.le a.2 b.2) :=
  Iff.rfl

instance : DecidableRel entryLe := fun a b => by
  unfold entryLe; infer_instance

theorem Job.le_refl (a : Job) : Job.le a a := Or.inr ⟨rfl, le_rfl⟩

theorem entryLe_refl (a : Entry) : entryLe a a := Or.inr ⟨rfl, Job.le_refl _⟩

instance : IsTrans Job Job.le :=
  ⟨fun a b c hab hbc => by
    rcases hab with h | ⟨h, hc⟩ <;> rcases hbc with h' | ⟨h', hc'⟩
    · exact Or.inl (by omega)
    · exact Or.inl (by omega)
    · exact Or.inl (by omega)
    · exact Or.inr ⟨by omega, le_trans hc hc'⟩⟩

instance : IsTotal Job Job.le :=
  ⟨fun a b => by
    unfold Job.le
    rcases Nat.lt_trichotomy a.delay b.delay with h | h | h
    · exact Or.inl (Or.inl h)
    · rcases le_total a.command b.command with hc | hc
      · exact Or.inl (Or.inr ⟨h, hc⟩)
      · exact Or.inr (Or.inr ⟨h.symm, hc⟩)
    · exact Or.inr (Or.inl h)⟩

instance : IsAntisymm Job Job.le :=
  ⟨fun a b hab hba => by
    have hd : a.delay = b.delay := by
      rcases hab with h | ⟨h, _⟩ <;> rcases hba with h' | ⟨h', _⟩ <;> omega
    have hc : a.command = b.command := by
      rcases hab with h | ⟨_, hc⟩
      · omega
      · rcases hba with h' | ⟨_, hc'⟩
        · omega
        · exact le_antisymm hc hc'
    obtain ⟨d₁, c₁⟩ := a; obtain ⟨d₂, c₂⟩ := b
    exact congrArg₂ Job.mk hd hc⟩

theorem Job.le_total' (a b : Job) : Job.le a b ∨ Job.le b a :=
  total_of Job.le a b

instance : IsTrans Entry entryLe :=
  ⟨fun a b c hab hbc => by
    rcases hab with h | ⟨h, hj⟩ <;> rcases hbc with h' | ⟨h', hj'⟩
    · exact Or.inl (by omega)
    · exact Or.inl (by omega)
    · exact Or.inl (by omega)
    · exact Or.inr ⟨by omega, trans_of Job.le hj hj'⟩⟩

instance : IsTotal Entry entryLe :=
  ⟨fun a b => by
    unfold entryLe
    rcases Nat.lt_trichotomy a.1 b.1 with h | h | h
    · exact Or.inl (Or.inl h)
    · rcases Job.le_total' a.2 b.2 with hj | hj
      · exact Or.inl (Or.inr ⟨h, hj⟩)
      · exact Or.inr (Or.inr ⟨h.symm, hj⟩)
    · exact Or.inr (Or.inl h)⟩

instance : IsAntisymm Entry entryLe :=
  ⟨fun a b hab hba => by
    have hd : a.1 = b.1 := by
      rcases hab with h | ⟨h, _⟩ <;> rcases hba with h' | ⟨h', _⟩ <;> omega
    have hj : a.2 = b.2 := by
      rcases hab with h | ⟨_, hj⟩
      · omega
      · rcases hba with h' | ⟨_, hj'⟩
        · omega
        · exact antisymm_of Job.le hj hj'
    exact Prod.ext hd hj⟩

/-- Python `sorted` on schedule entries. -/
def sortE (l : List Entry) : List Entry :=
  List.insertionSort entryLe l

/-- Model of the schedule built by `ScheduleIterator.__init__`:
`sorted([(started + j.delay, j) for j in jobs])`. -/
def scheduleInit (started : Nat) (jobs : List Job) : List Entry :=
  sortE (jobs.map fun j => (started + j.delay, j))

/-- Model of `ScheduleIterator.__init__` including the empty-jobs check,
which raises `ValueError("Cannot run with empty schedule.")`. -/
def scheduleInitE (started : Nat) (jobs : List Job) :
    Except String (List Entry) :=
  if jobs.length = 0 then
    Except.error "Cannot run with empty schedule."
  else
    Except.ok (scheduleInit started jobs)

/-- Model of `ScheduleIterator.__next__`: takes the current wall-clock
reading (the `datetime.now()` call) and the `sleep` flag, returns the
emitted `(deadline, job)` pair, the new schedule, and the number of
seconds slept.  `StopIteration` on an empty schedule is modelled as
`none`.  The source replaces `schedule[0]` by the re-armed entry and
re-sorts the whole list. -/
def scheduleNextFull (sleepFlag : Bool) (now : Int) :
    List Entry → Option ((Entry × List Entry) × Int)
  | [] => none
  | (d, j) :: rest =>
      let s' := sortE ((d + j.delay, j) :: rest)
      let sl : Int := (d : Int) - now
      some (((d, j), s'), if sleepFlag ∧ 0 < sl then sl else 0)

/-- The clock-independent part of `__next__`: the returned pair and the
new schedule. -/
def scheduleNext : List Entry → Option (Entry × List Entry)
  | [] => none
  | (d, j) :: rest => some ((d, j), sortE ((d + j.delay, j) :: rest))

/-- The first `n` `(deadline, job)` pairs produced by repeatedly calling
`__next__` from schedule state `s`. -/
def iterOut (s : List Entry) : Nat → List Entry
  | 0 => []
  | n + 1 =>
      match scheduleNext s with
      | none => []
      | some (e, s') => e :: iterOut s' n

/-- The first `n` pairs produced by the full model, where `clock i` is the
value returned by the `i`-th `datetime.now()` call. -/
def iterOutFull (sleepFlag : Bool) (clock : Nat → Int) (s : List Entry) :
    Nat → List Entry
  | 0 => []
  | n + 1 =>
      match scheduleNextFull sleepFlag (clock 0) s with
      | none => []
      | some ((e, s'), _) => e :: iterOutFull sleepFlag (fun i => clock (i + 1)) s' n

/-- Model of `Scheduler` from `scheduler.py`: the `sleep` flag and the list of
jobs accumulated by `add_job`.  The Python class has no started/stopped
state. -/
structure Scheduler where
  sleep : Bool := true
  jobs : List Job := []

/-- Model of `Scheduler.as_from(now)`: builds a `ScheduleIterator` for the
current job list. -/
def Scheduler.as_from (s : Scheduler) (now : Nat) : Except String (List Entry) :=
  scheduleInitE now s.jobs

/-- Model of `Scheduler.__iter__`: identical to `as_from` with `now` the current
wall clock, passed here as a parameter. -/
def Scheduler.iterFromNow (s : Scheduler) (now : Nat) : Except String (List Entry) :=
  s.as_from now

/-- Model of `Scheduler.add_job`: appends to the job list.  The method contains no
started-state check and cannot raise; the `Except` codomain records the
absence of any raised error. -/
def Scheduler.add_job (s : Scheduler) (j : Job) : Except String Scheduler :=
  Except.ok { s with jobs := s.jobs ++ [j] }

/-! ## The reference merge semantics (the specification of correctness)

The spec defines correctness of the iterator as: expand every job's
arithmetic sequence of multiples of its interval from the start instant,
merge, and sort by timestamp with ties broken by the job order. -/

/-- Modelled from the spec: the arithmetic sequence of deadlines of one
job inside the window `(T0, T0 + d]`, i.e. `T0 + k * interval` for
`k = 1 .. d / interval`. -/
def jobMultiples (T0 d : Nat) (j : Job) : List Entry :=
  (List.range' 1 (d / j.delay)).map fun k => (T0 + k * j.delay, j)

/-- Modelled from the spec: merge every job's arithmetic sequence over the
window `(T0, T0 + d]` and sort by timestamp with ties broken by the job
order. -/
def expandWindow (T0 d : Nat) (jobs : List Job) : List Entry :=
  sortE ((jobs.map (jobMultiples T0 d)).flatten)

/-- All future emissions, up to bound `B`, of a single armed schedule
entry: the entry's own deadline and its re-armed successors. -/
def entryExp (B : Nat) (e : Entry) : List Entry :=
  if e.1 ≤ B then
    (List.range ((B - e.1) / e.2.delay + 1)).map fun t => (e.1 + t * e.2.delay, e.2)
  else []

/-- All future emissions, up to bound `B`, of a whole schedule state. -/
def stateExp (B : Nat) (s : List Entry) : List Entry :=
  (s.map (entryExp B)).flatten

theorem sortE_sorted (l : List Entry) : (sortE l).Sorted entryLe :=
  List.sorted_insertionSort entryLe l

theorem sortE_perm (l : List Entry) : (sortE l).Perm l :=
  List.perm_insertionSort entryLe l

theorem sortE_congr_perm {l l' : List Entry} (h : l.Perm l') : sortE l = sortE l' :=
  List.eq_of_perm_of_sorted ((sortE_perm l).trans (h.trans (sortE_perm l').symm))
    (sortE_sorted l) (sortE_sorted l')

theorem sortE_cons_of_min {e : Entry} {l : List Entry}
    (hmin : ∀ x ∈ l, entryLe e x) : sortE (e :: l) = e :: sortE l := by
  refine List.eq_of_perm_of_sorted ((sortE_perm _).trans ((sortE_perm l).symm.cons e))
    (sortE_sorted _) ?_
  rw [List.sorted_cons]
  exact ⟨fun b hb => hmin b ((sortE_perm l).mem_iff.mp hb), sortE_sorted l⟩

theorem stateExp_perm {B : Nat} {s s' : List Entry} (h : s.Perm s') :
    (stateExp B s).Perm (stateExp B s') :=
  (h.map (entryExp B)).flatten

/-- Every element of `entryExp B e` is at or after `e` in the entry
order. -/
theorem entryLe_of_mem_entryExp {B : Nat} {e x : Entry}
    (hx : x ∈ entryExp B e) : entryLe e x := by
  unfold entryExp at hx
  split at hx
  · obtain ⟨t, _, rfl⟩ := List.mem_map.mp hx
    rcases Nat.lt_or_ge e.1 (e.1 + t * e.2.delay) with h | h
    · exact Or.inl h
    · exact Or.inr ⟨by omega, Job.le_refl _⟩
  · exact absurd hx (List.not_mem_nil x)

/-- An armed entry within the window contributes itself to `stateExp`. -/
theorem mem_stateExp_self {B : Nat} {s : List Entry} {e : Entry}
    (he : e ∈ s) (hB : e.1 ≤ B) : e ∈ stateExp B s := by
  refine List.mem_flatten.mpr ⟨entryExp B e, List.mem_map_of_mem (entryExp B) he, ?_⟩
  unfold entryExp
  rw [if_pos hB]
  refine List.mem_map.mpr ⟨0, ?_, by simp⟩
  exact List.mem_range.mpr (Nat.succ_pos _)

theorem entryExp_pair (B x : Nat) (j : Job) :
    entryExp B (x, j) =
      if x ≤ B then
        (List.range ((B - x) / j.delay + 1)).map fun t => (x + t * j.delay, j)
      else [] :=
  rfl

/-- Unfolding one step of an in-window entry's future emissions: the entry
itself followed by the emissions of its re-armed successor. -/
theorem entryExp_cons {B x : Nat} {j : Job} (hB : x ≤ B) (hpos : 0 < j.delay) :
    entryExp B (x, j) = (x, j) :: entryExp B (x + j.delay, j) := by
  rw [entryExp_pair, entryExp_pair, if_pos hB]
  rcases Nat.lt_or_ge B (x + j.delay) with hout | hin
  · rw [Nat.div_eq_of_lt (by omega), if_neg (by omega)]
    rw [show List.range 1 = [0] from rfl]
    simp
  · rw [if_pos (by omega)]
    have hstep : (B - x) / j.delay = (B - (x + j.delay)) / j.delay + 1 := by
      have h2 := Nat.div_eq_sub_div hpos (show j.delay ≤ B - x by omega)
      have hsub : B - (x + j.delay) = B - x - j.delay := by omega
      rw [hsub]
      exact h2
    rw [hstep, List.range_succ_eq_map, List.map_cons, List.map_map]
    refine congrArg₂ _ (by simp) (List.map_congr_left fun t _ => ?_)
    simp only [Function.comp_apply, Nat.succ_eq_add_one]
    refine congrArg₂ Prod.mk ?_ rfl
    ring

/-- If the state's expansion up to `B` is empty, every armed deadline is
beyond `B`. -/
theorem deadline_gt_of_stateExp_nil {B : Nat} {s : List Entry}
    (h : stateExp B s = []) : ∀ e ∈ s, B < e.1 := by
  intro e he
  by_contra hle
  have hle' : e.1 ≤ B := by omega
  have := mem_stateExp_self he hle'
  rw [h] at this
  exact absurd this (List.not_mem_nil e)

/-- Once every armed deadline is beyond `B`, every subsequent emission is
beyond `B` (re-arming only moves deadlines later). -/
theorem iterOut_deadline_gt {B : Nat} :
    ∀ (n : Nat) (s : List Entry), (∀ e ∈ s, B < e.1) →
      ∀ e' ∈ iterOut s n, B < e'.1
  | 0, _, _ => by intro e' h; exact absurd h (List.not_mem_nil e')
  | n + 1, [], _ => by intro e' h; exact absurd h (List.not_mem_nil e')
  | n + 1, (d, j) :: rest, hb => by
    intro e' he'
    rw [show iterOut ((d, j) :: rest) (n + 1)
          = (d, j) :: iterOut (sortE ((d + j.delay, j) :: rest)) n from rfl] at he'
    rcases List.mem_cons.mp he' with rfl | he'
    · exact hb (d, j) (List.mem_cons_self _ _)
    · refine iterOut_deadline_gt n _ ?_ e' he'
      intro e he
      have he2 : e ∈ (d + j.delay, j) :: rest := (sortE_perm _).mem_iff.mp he
      rcases List.mem_cons.mp he2 with rfl | he3
      · have h1 : B < d := hb (d, j) (List.mem_cons_self _ _)
        show B < d + j.delay
        omega
      · exact hb e (List.mem_cons_of_mem _ he3)

theorem exists_mem_le_of_stateExp_ne_nil {B : Nat} {s : List Entry}
    (h : stateExp B s ≠ []) : ∃ e ∈ s, e.1 ≤ B := by
  obtain ⟨y, hy⟩ := List.exists_mem_of_ne_nil _ h
  obtain ⟨l, hl, hyl⟩ := List.mem_flatten.mp hy
  obtain ⟨e, hes, rfl⟩ := List.mem_map.mp hl
  refine ⟨e, hes, ?_⟩
  by_contra hgt
  unfold entryExp at hyl
  rw [if_neg hgt] at hyl
  exact absurd hyl (List.not_mem_nil y)

theorem entryLe_stateExp {B : Nat} {b : Entry} {s : List Entry}
    (hb : ∀ e ∈ s, entryLe b e) : ∀ x ∈ stateExp B s, entryLe b x := by
  intro x hx
  obtain ⟨l, hl, hxl⟩ := List.mem_flatten.mp hx
  obtain ⟨e, hes, rfl⟩ := List.mem_map.mp hl
  exact trans_of entryLe (hb e hes) (entryLe_of_mem_entryExp hxl)

/-- Core correctness of the schedule iterator: starting from any sorted
state with positive intervals, the emissions whose deadline is at most
`B` are exactly the sorted expansion of the state's future emissions up
to `B`, provided at least that many steps are taken. -/
theorem iterOut_window (B : Nat) :
    ∀ (n : Nat) (s : List Entry), s.Sorted entryLe →
      (∀ e ∈ s, 0 < e.2.delay) → (stateExp B s).length ≤ n →
      (iterOut s n).filter (fun e => decide (e.1 ≤ B)) = sortE (stateExp B s)
  | 0, s, _, _, hn => by
    have h0 : stateExp B s = [] := List.length_eq_zero.mp (Nat.le_zero.mp hn)
    rw [h0]
    rfl
  | n + 1, s, hsort, hpos, hn => by
    by_cases hemp : stateExp B s = []
    · have hgt := deadline_gt_of_stateExp_nil hemp
      have hfil : (iterOut s (n + 1)).filter (fun e => decide (e.1 ≤ B)) = [] := by
        apply List.filter_eq_nil_iff.mpr
        intro a ha
        have h2 := iterOut_deadline_gt (n + 1) s hgt a ha
        simp only [decide_eq_true_eq]
        omega
      rw [hfil, hemp]
      rfl
    · cases s with
      | nil => exact absurd rfl hemp
      | cons e0 rest =>
        obtain ⟨d, j⟩ := e0
        have hsc := List.sorted_cons.mp hsort
        have hdj_pos : 0 < j.delay := hpos (d, j) (List.mem_cons_self _ _)
        have hd_le : d ≤ B := by
          obtain ⟨e1, he1, he1B⟩ := exists_mem_le_of_stateExp_ne_nil hemp
          rcases List.mem_cons.mp he1 with rfl | h1
          · exact he1B
          · rcases hsc.1 e1 h1 with h | ⟨h, _⟩ <;> omega
        set s' := sortE ((d + j.delay, j) :: rest) with hs'
        have hpos' : ∀ e ∈ s', 0 < e.2.delay := by
          intro e he
          rcases List.mem_cons.mp ((sortE_perm _).mem_iff.mp he) with rfl | h1
          · exact hdj_pos
          · exact hpos e (List.mem_cons_of_mem _ h1)
        have hchain : stateExp B ((d, j) :: rest)
            = (d, j) :: stateExp B ((d + j.delay, j) :: rest) := by
          show entryExp B (d, j) ++ stateExp B rest = _
          rw [entryExp_cons hd_le hdj_pos]
          rfl
        have hperm : (stateExp B s').Perm (stateExp B ((d + j.delay, j) :: rest)) :=
          stateExp_perm (sortE_perm _)
        have hn' : (stateExp B s').length ≤ n := by
          have hl1 : (stateExp B ((d, j) :: rest)).length ≤ n + 1 := hn
          rw [hchain] at hl1
          have hl2 := hperm.length_eq
          simp only [List.length_cons] at hl1
          omega
        have IH := iterOut_window B n s' (sortE_sorted _) hpos' hn'
        have hmin : ∀ x ∈ stateExp B ((d + j.delay, j) :: rest), entryLe (d, j) x := by
          apply entryLe_stateExp
          intro e he
          rcases List.mem_cons.mp he with rfl | h1
          · exact Or.inl (by omega)
          · exact hsc.1 e h1
        have hstep : iterOut ((d, j) :: rest) (n + 1) = (d, j) :: iterOut s' n := rfl
        rw [hstep, hchain, sortE_cons_of_min hmin, ← sortE_congr_perm hperm, ← IH]
        have hpa : (fun e : Entry => decide (e.1 ≤ B)) (d, j) = true := by
          simp only [decide_eq_true_eq]
          exact hd_le
        rw [List.filter_cons, if_pos hpa]

theorem entryExp_init {T0 d : Nat} {j : Job} (hpos : 0 < j.delay) :
    entryExp (T0 + d) (T0 + j.delay, j) = jobMultiples T0 d j := by
  rw [entryExp_pair]
  unfold jobMultiples
  rcases Nat.lt_or_ge d j.delay with hlt | hge
  · rw [if_neg (by omega), Nat.div_eq_of_lt hlt]
    rfl
  · rw [if_pos (by omega)]
    have hsub : T0 + d - (T0 + j.delay) = d - j.delay := by omega
    have hdiv : (d - j.delay) / j.delay + 1 = d / j.delay := by
      have h2 := Nat.div_eq_sub_div hpos hge
      omega
    rw [hsub, hdiv, List.range'_eq_map_range, List.map_map]
    refine List.map_congr_left fun t _ => ?_
    simp only [Function.comp_apply]
    refine congrArg₂ Prod.mk ?_ rfl
    ring

theorem stateExp_init {T0 d : Nat} {jobs : List Job}
    (hpos : ∀ j ∈ jobs, 0 < j.delay) :
    stateExp (T0 + d) (jobs.map fun j => (T0 + j.delay, j))
      = (jobs.map (jobMultiples T0 d)).flatten := by
  unfold stateExp
  rw [List.map_map]
  refine congrArg List.flatten (List.map_congr_left fun j hj => ?_)
  simp only [Function.comp_apply]
  exact entryExp_init (hpos j hj)

theorem scheduleInit_delay_pos {T0 : Nat} {jobs : List Job}
    (hpos : ∀ j ∈ jobs, 0 < j.delay) :
    ∀ e ∈ scheduleInit T0 jobs, 0 < e.2.delay := by
  intro e he
  have he2 := (sortE_perm _).mem_iff.mp he
  obtain ⟨j, hj, rfl⟩ := List.mem_map.mp he2
  exact hpos j hj

/-- The window equality instantiated at the freshly started schedule: the
emissions with deadline in `(T0, T0 + d]` are exactly the sorted merged
expansion of the jobs' interval multiples. -/
theorem scheduleInit_window (T0 d : Nat) (jobs : List Job)
    (hpos : ∀ j ∈ jobs, 0 < j.delay) (n : Nat)
    (hn : (expandWindow T0 d jobs).length ≤ n) :
    (iterOut (scheduleInit T0 jobs) n).filter (fun e => decide (e.1 ≤ T0 + d))
      = expandWindow T0 d jobs := by
  have h1 : (stateExp (T0 + d) (scheduleInit T0 jobs)).Perm
      (stateExp (T0 + d) (jobs.map fun j => (T0 + j.delay, j))) :=
    stateExp_perm (sortE_perm _)
  rw [stateExp_init hpos] at h1
  have hlen : (stateExp (T0 + d) (scheduleInit T0 jobs)).length ≤ n := by
    have h2 := h1.length_eq
    have h3 : (expandWindow T0 d jobs).length
        = ((jobs.map (jobMultiples T0 d)).flatten).length :=
      (sortE_perm _).length_eq
    omega
  rw [iterOut_window (T0 + d) n (scheduleInit T0 jobs) (sortE_sorted _)
    (scheduleInit_delay_pos hpos) hlen]
  exact sortE_congr_perm h1

theorem sum_map_ite_eq_count (jobs : List Job) (j : Job) (c : Nat) :
    (jobs.map fun x => if x = j then c else 0).sum = jobs.count j * c := by
  induction jobs with
  | nil => simp
  | cons a l ih =>
    simp only [List.map_cons, List.sum_cons, List.count_cons, ih]
    by_cases h : a = j
    · subst h
      simp [Nat.add_mul, Nat.add_comm]
    · simp [h]

theorem countP_jobMultiples (T0 d : Nat) (j j' : Job) :
    (jobMultiples T0 d j').countP (fun e => decide (e.2 = j))
      = if j' = j then d / j.delay else 0 := by
  by_cases h : j' = j
  · subst h
    rw [if_pos rfl]
    have hall : ∀ e ∈ jobMultiples T0 d j', (fun e : Entry => decide (e.2 = j')) e = true := by
      intro e he
      obtain ⟨k, _, rfl⟩ := List.mem_map.mp he
      simp
    rw [List.countP_eq_length.mpr hall]
    unfold jobMultiples
    rw [List.length_map, List.length_range']
  · rw [if_neg h]
    apply List.countP_eq_zero.mpr
    intro e he
    obtain ⟨k, _, rfl⟩ := List.mem_map.mp he
    simpa using h

/-- Occurrence counting in the merged window expansion: each occurrence of
job `j` in the job list contributes `⌊d / interval⌋` window entries. -/
theorem countP_expandWindow (T0 d : Nat) (jobs : List Job) (j : Job) :
    (expandWindow T0 d jobs).countP (fun e => decide (e.2 = j))
      = jobs.count j * (d / j.delay) := by
  unfold expandWindow
  rw [((sortE_perm _).countP_eq _), List.countP_flatten, List.map_map]
  have h1 : (jobs.map ((List.countP fun e : Entry => decide (e.2 = j)) ∘ jobMultiples T0 d))
      = jobs.map fun x => if x = j then d / j.delay else 0 := by
    refine List.map_congr_left fun j' _ => ?_
    simp only [Function.comp_apply]
    exact countP_jobMultiples T0 d j j'
  rw [h1, sum_map_ite_eq_count]

theorem iterOut_length : ∀ (n : Nat) (s : List Entry), s ≠ [] →
    (iterOut s n).length = n
  | 0, _, _ => rfl
  | _ + 1, [], h => absurd rfl h
  | n + 1, (d, j) :: rest, _ => by
    have hlen : (sortE ((d + j.delay, j) :: rest)).length = rest.length + 1 :=
      (sortE_perm _).length_eq
    have h2 : sortE ((d + j.delay, j) :: rest) ≠ [] := by
      intro hnil
      rw [hnil] at hlen
      simp at hlen
    rw [show iterOut ((d, j) :: rest) (n + 1)
        = (d, j) :: iterOut (sortE ((d + j.delay, j) :: rest)) n from rfl]
    simp [iterOut_length n _ h2]

/-- C1: for every list of jobs with positive intervals and every start
instant `T0`, the `(deadline, job)` sequence produced by repeatedly
calling the schedule iterator's `__next__` is, over any window
`(T0, T0 + d]`, exactly the result of expanding each job's arithmetic
sequence of multiples of its interval from `T0`, merging, and sorting by
timestamp with ties broken by the `Job` total order (interval ascending,
then command ascending); and each job `j` occurs in that window exactly
`count j * (d / interval j)` times — in particular, for a job listed
once and `d = 2 * max interval`, exactly `⌊d / interval⌋` times. -/
theorem schedule_iterator_matches_sorted_merge (T0 d : Nat) (jobs : List Job)
    (hpos : ∀ j ∈ jobs, 0 < j.delay) (n : Nat)
    (hn : (expandWindow T0 d jobs).length ≤ n) :
    (iterOut (scheduleInit T0 jobs) n).filter (fun e => decide (e.1 ≤ T0 + d))
        = expandWindow T0 d jobs
      ∧ ∀ j ∈ jobs,
        ((iterOut (scheduleInit T0 jobs) n).filter
            (fun e => decide (e.1 ≤ T0 + d))).countP (fun e => decide (e.2 = j))
          = jobs.count j * (d / j.delay) := by
  have h1 := scheduleInit_window T0 d jobs hpos n hn
  refine ⟨h1, fun j _ => ?_⟩
  rw [h1, countP_expandWindow]

theorem schedule_iterator_matches_sorted_merge_witness :
    (∀ j ∈ [Job.mk 2 "A", Job.mk 4 "B", Job.mk 5 "C"], 0 < j.delay)
      ∧ (expandWindow 0 10 [Job.mk 2 "A", Job.mk 4 "B", Job.mk 5 "C"]).length ≤ 9
      ∧ ((iterOut (scheduleInit 0 [Job.mk 2 "A", Job.mk 4 "B", Job.mk 5 "C"]) 9).filter
            (fun e => decide (e.1 ≤ 0 + 10))
          = expandWindow 0 10 [Job.mk 2 "A", Job.mk 4 "B", Job.mk 5 "C"]
        ∧ ∀ j ∈ [Job.mk 2 "A", Job.mk 4 "B", Job.mk 5 "C"],
          ((iterOut (scheduleInit 0 [Job.mk 2 "A", Job.mk 4 "B", Job.mk 5 "C"]) 9).filter
              (fun e => decide (e.1 ≤ 0 + 10))).countP (fun e => decide (e.2 = j))
            = [Job.mk 2 "A", Job.mk 4 "B", Job.mk 5 "C"].count j * (10 / j.delay)) :=
  ⟨by decide, by decide,
    schedule_iterator_matches_sorted_merge 0 10 [Job.mk 2 "A", Job.mk 4 "B", Job.mk 5 "C"]
      (by decide) 9 (by decide)⟩

/-- C5: for every non-empty sorted schedule state with positive
intervals, `__next__` returns the entry with the smallest deadline (ties
broken by the `Job` total order), re-arms exactly that job at
`deadline + interval`, preserves one schedule entry per job (the
multiset of armed jobs is unchanged), keeps the state sorted with
positive intervals, and never raises once started: `n` calls always
yield `n` entries. -/
theorem schedule_next_step (e : Entry) (rest : List Entry)
    (hsort : (e :: rest).Sorted entryLe)
    (hpos : ∀ x ∈ e :: rest, 0 < x.2.delay) :
    scheduleNext (e :: rest) = some (e, sortE ((e.1 + e.2.delay, e.2) :: rest))
      ∧ (∀ x ∈ e :: rest, entryLe e x)
      ∧ (sortE ((e.1 + e.2.delay, e.2) :: rest)).Perm
          ((e.1 + e.2.delay, e.2) :: rest)
      ∧ ((sortE ((e.1 + e.2.delay, e.2) :: rest)).map Prod.snd).Perm
          ((e :: rest).map Prod.snd)
      ∧ (sortE ((e.1 + e.2.delay, e.2) :: rest)).Sorted entryLe
      ∧ (∀ x ∈ sortE ((e.1 + e.2.delay, e.2) :: rest), 0 < x.2.delay)
      ∧ ∀ n, (iterOut (e :: rest) n).length = n := by
  obtain ⟨d, j⟩ := e
  have hsc := List.sorted_cons.mp hsort
  refine ⟨rfl, ?_, sortE_perm _, ?_, sortE_sorted _, ?_, fun n => iterOut_length n _ (by simp)⟩
  · intro x hx
    rcases List.mem_cons.mp hx with rfl | hx
    · exact entryLe_refl _
    · exact hsc.1 x hx
  · have h1 := (sortE_perm ((d + j.delay, j) :: rest)).map Prod.snd
    simpa using h1
  · intro x hx
    rcases List.mem_cons.mp ((sortE_perm _).mem_iff.mp hx) with rfl | hx
    · exact hpos (d, j) (List.mem_cons_self _ _)
    · exact hpos x (List.mem_cons_of_mem _ hx)

theorem schedule_next_step_witness :
    ((((2 : Nat), Job.mk 2 "A") :: [((4 : Nat), Job.mk 4 "B")]).Sorted entryLe)
      ∧ (∀ x ∈ ((2 : Nat), Job.mk 2 "A") :: [((4 : Nat), Job.mk 4 "B")], 0 < x.2.delay)
      ∧ scheduleNext (((2 : Nat), Job.mk 2 "A") :: [((4 : Nat), Job.mk 4 "B")])
        = some (((2 : Nat), Job.mk 2 "A"),
            sortE ((((2 : Nat), Job.mk 2 "A").1 + ((2 : Nat), Job.mk 2 "A").2.delay,
              ((2 : Nat), Job.mk 2 "A").2) :: [((4 : Nat), Job.mk 4 "B")])) :=
  ⟨by decide, by decide,
    (schedule_next_step ((2 : Nat), Job.mk 2 "A") [((4 : Nat), Job.mk 4 "B")]
      (by decide) (by decide)).1⟩

theorem iterOutFull_eq_iterOut (f : Bool) :
    ∀ (n : Nat) (c : Nat → Int) (s : List Entry), iterOutFull f c s n = iterOut s n
  | 0, _, _ => rfl
  | _ + 1, _, [] => rfl
  | n + 1, c, (d, j) :: rest => by
    rw [show iterOutFull f c ((d, j) :: rest) (n + 1)
        = (d, j) :: iterOutFull f (fun i => c (i + 1)) (sortE ((d + j.delay, j) :: rest)) n
      from rfl]
    rw [show iterOut ((d, j) :: rest) (n + 1)
        = (d, j) :: iterOut (sortE ((d + j.delay, j) :: rest)) n from rfl]
    rw [iterOutFull_eq_iterOut f n _ _]

/-- C10: the sequence of `(deadline, job)` pairs returned by the schedule
iterator is a deterministic function of the start instant and job list
alone: two runs from the same start instant and jobs produce identical
sequences whatever the wall clock returns on each `datetime.now()` call
and whatever the sleep flag is — the clock influences only the sleep
component of `scheduleNextFull`, never the returned pairs. -/
theorem schedule_iterator_deterministic (f f' : Bool) (c c' : Nat → Int)
    (T0 : Nat) (jobs : List Job) (n : Nat) :
    iterOutFull f c (scheduleInit T0 jobs) n
      = iterOutFull f' c' (scheduleInit T0 jobs) n := by
  rw [iterOutFull_eq_iterOut, iterOutFull_eq_iterOut]

/-- C3: starting the scheduling engine with zero jobs added fails with the
empty-schedule error (`ValueError("Cannot run with empty schedule.")`,
the source's realisation of `ScheduleError(EmptySchedule)`), both via the
default start (`__iter__`, which starts from the current instant) and via
the explicit `as_from(now)` call; no iterator state — hence no schedule
entry — is produced on either path. -/
theorem empty_scheduler_start_fails (sl : Bool) (now now' : Nat) :
    (Scheduler.mk sl []).as_from now
        = Except.error "Cannot run with empty schedule."
      ∧ (Scheduler.mk sl []).iterFromNow now'
        = Except.error "Cannot run with empty schedule." :=
  ⟨rfl, rfl⟩

/-- C4 counterexample: with a scheduler holding one job and an iterator
already obtained (start succeeded), `add_job` does not fail with
`ScheduleError(AlreadyStarted)` — the Python method has no started-state
check; it returns normally with the job appended. -/
theorem add_job_after_start_no_error :
    (Scheduler.mk false [Job.mk 2 "A"]).as_from 0
        = Except.ok (scheduleInit 0 [Job.mk 2 "A"])
      ∧ (Scheduler.mk false [Job.mk 2 "A"]).add_job (Job.mk 4 "B")
        = Except.ok (Scheduler.mk false [Job.mk 2 "A", Job.mk 4 "B"]) :=
  ⟨rfl, rfl⟩

/-- C4 (amended): calling `add_job` after the scheduler has been started
(an iterator was obtained) does not fail — it returns the scheduler with
the job appended and never produces an error — and the already-running
schedule is unaffected: the previously obtained iterator state is the
snapshot `scheduleInit T0 jobs` built (by `sorted`, a copy) from the jobs
present at start time, so its emissions are identical whether or not
`add_job` was attempted afterwards. -/
theorem add_job_after_start (s : Scheduler) (j : Job) (T0 : Nat)
    (st : List Entry) (hst : s.as_from T0 = Except.ok st) :
    (s.add_job j = Except.ok (Scheduler.mk s.sleep (s.jobs ++ [j])))
      ∧ (∀ msg, s.add_job j ≠ Except.error msg)
      ∧ ∀ n, iterOut st n = iterOut (scheduleInit T0 s.jobs) n := by
  unfold Scheduler.as_from scheduleInitE at hst
  by_cases h : s.jobs.length = 0
  · rw [if_pos h] at hst
    exact absurd hst (by simp)
  · rw [if_neg h] at hst
    have hst2 : scheduleInit T0 s.jobs = st := by
      injection hst
    refine ⟨rfl, fun msg hmsg => ?_, fun n => by rw [hst2]⟩
    exact absurd hmsg (by simp [Scheduler.add_job])

theorem add_job_after_start_witness :
    ((Scheduler.mk true [Job.mk 2 "A"]).as_from 5
        = Except.ok (scheduleInit 5 [Job.mk 2 "A"]))
      ∧ ((Scheduler.mk true [Job.mk 2 "A"]).add_job (Job.mk 4 "B")
        = Except.ok (Scheduler.mk true ([Job.mk 2 "A"] ++ [Job.mk 4 "B"]))) :=
  ⟨rfl,
    (add_job_after_start (Scheduler.mk true [Job.mk 2 "A"]) (Job.mk 4 "B") 5
      (scheduleInit 5 [Job.mk 2 "A"]) rfl).1⟩

/-! ## The grouped programme of `__init__.py` -/

/-- Python tuple comparison on the `(time, url)` pairs sorted by
`compute_schedule`. -/
def pairLe (a b : Nat × String) : Prop :=
  a.1 < b.1 ∨ (a.1 = b.1 ∧ a.2 ≤ b.2)

instance : DecidableRel pairLe := fun a b => by
  unfold pairLe; infer_instance

instance : IsTrans (Nat × String) pairLe :=
  ⟨fun a b c hab hbc => by
    rcases hab with h | ⟨h, hc⟩ <;> rcases hbc with h' | ⟨h', hc'⟩
    · exact Or.inl (by omega)
    · exact Or.inl (by omega)
    · exact Or.inl (by omega)
    · exact Or.inr ⟨by omega, le_trans hc hc'⟩⟩

instance : IsTotal (Nat × String) pairLe :=
  ⟨fun a b => by
    unfold pairLe
    rcases Nat.lt_trichotomy a.1 b.1 with h | h | h
    · exact Or.inl (Or.inl h)
    · rcases le_total a.2 b.2 with hc | hc
      · exact Or.inl (Or.inr ⟨h, hc⟩)
      · exact Or.inr (Or.inr ⟨h.symm, hc⟩)
    · exact Or.inr (Or.inl h)⟩

instance : IsAntisymm (Nat × String) pairLe :=
  ⟨fun a b hab hba => by
    have hd : a.1 = b.1 := by
      rcases hab with h | ⟨h, _⟩ <;> rcases hba with h' | ⟨h', _⟩ <;> omega
    have hc : a.2 = b.2 := by
      rcases hab with h | ⟨_, hc⟩
      · omega
      · rcases hba with h' | ⟨_, hc'⟩
        · omega
        · exact le_antisymm hc hc'
    exact Prod.ext hd hc⟩

/-- Python `sorted` on the `(time, url)` pairs of `compute_schedule`. -/
def sortP (l : List (Nat × String)) : List (Nat × String) :=
  List.insertionSort pairLe l

/-- Duration of one full cycle: `functools.reduce(lambda x, y: x*y//gcd(x,y))`
over the intervals.  In Python `reduce` requires a non-empty
configuration; the empty case is given the junk value `0`. -/
def progDur (config : List (Nat × String)) : Nat :=
  match config.map Prod.fst with
  | [] => 0
  | s :: rest => rest.foldl (fun x y => x * y / Nat.gcd x y) s

/-- The comprehension
`[(n * s, url) for s, url in config for n in range(1, dur // s + 1)]`,
with the cycle duration passed explicitly. -/
def progExpansionAux (dur : Nat) (config : List (Nat × String)) :
    List (Nat × String) :=
  (config.map fun c => (List.range' 1 (dur / c.1)).map fun n => (n * c.1, c.2)).flatten

/-- The full-cycle expansion used by `compute_schedule`. -/
def progExpansion (config : List (Nat × String)) : List (Nat × String) :=
  progExpansionAux (progDur config) config

/-- Model of `itertools.groupby(..., lambda x: x[0])` composed with the
consumption `[u for _, u in urls]`: groups consecutive pairs sharing a
timestamp. -/
def groupByTime : List (Nat × String) → List (Nat × List String)
  | [] => []
  | (t, u) :: rest =>
    match groupByTime rest with
    | [] => [(t, [u])]
    | (t', us) :: gs =>
      if t = t' then (t, u :: us) :: gs else (t, [u]) :: (t', us) :: gs

/-- The delta-encoding loop at the end of `compute_schedule`: times
become deltas relative to the previous step. -/
def deltaEncode (t : Nat) : List (Nat × List String) → List (Nat × List String)
  | [] => []
  | (s, us) :: rest => (s - t, us) :: deltaEncode s rest

/-- Model of `compute_schedule`. -/
def compute_schedule (config : List (Nat × String)) :
    List (Nat × List String) :=
  deltaEncode 0 (groupByTime (sortP (progExpansion config)))

/-- Absolute flush instants of a delta-encoded programme played from
offset `t0`, as the `scheduler` loop does (sleep the delta, then flush
the whole group at once). -/
def absTimes (t0 : Nat) : List (Nat × List String) → List (Nat × List String)
  | [] => []
  | (dt, us) :: rest => (t0 + dt, us) :: absTimes (t0 + dt) rest

/-- The commands the grouped programme flushes at absolute offset `t` of
its first cycle. -/
def dispatchedAt (t : Nat) (prog : List (Nat × List String)) : List String :=
  ((absTimes 0 prog).filter fun g => decide (g.1 = t)).foldr
    (fun g acc => g.2 ++ acc) []

/-- The jobs `scheduler.main` builds from a parsed configuration. -/
def configJobs (config : List (Nat × String)) : List Job :=
  config.map fun c => Job.mk c.1 c.2

theorem absTimes_deltaEncode :
    ∀ (gs : List (Nat × List String)) (t : Nat),
      List.Chain (· ≤ ·) t (gs.map Prod.fst) →
      absTimes t (deltaEncode t gs) = gs
  | [], _, _ => rfl
  | (s, us) :: gs, t, h => by
    rw [List.map_cons, List.chain_cons] at h
    show (t + (s - t), us) :: absTimes (t + (s - t)) (deltaEncode s gs) = _
    have hts : t + (s - t) = s := by omega
    rw [hts, absTimes_deltaEncode gs s h.2]

theorem groupByTime_keys_sublist :
    ∀ l : List (Nat × String),
      ((groupByTime l).map Prod.fst).Sublist (l.map Prod.fst)
  | [] => List.Sublist.refl _
  | (t, u) :: rest => by
    have ih := groupByTime_keys_sublist rest
    show ((match groupByTime rest with
      | [] => [(t, [u])]
      | (t', us) :: gs =>
        if t = t' then (t, u :: us) :: gs
        else (t, [u]) :: (t', us) :: gs).map Prod.fst).Sublist _
    cases hg : groupByTime rest with
    | nil =>
      exact (List.nil_sublist _).cons₂ t
    | cons g gs =>
      obtain ⟨t', us⟩ := g
      rw [hg, List.map_cons] at ih
      show ((if t = t' then (t, u :: us) :: gs
          else (t, [u]) :: (t', us) :: gs).map Prod.fst).Sublist _
      by_cases h : t = t'
      · rw [if_pos h]
        subst h
        exact (List.sublist_of_cons_sublist ih).cons₂ t
      · rw [if_neg h]
        exact ih.cons₂ t

theorem groupByTime_filter_foldr (t : Nat) :
    ∀ l : List (Nat × String),
      ((groupByTime l).filter fun g => decide (g.1 = t)).foldr
          (fun g acc => g.2 ++ acc) []
        = (l.filter fun e => decide (e.1 = t)).map Prod.snd
  | [] => rfl
  | (t₀, u) :: rest => by
    have ih := groupByTime_filter_foldr t rest
    rw [show groupByTime ((t₀, u) :: rest) = match groupByTime rest with
        | [] => [(t₀, [u])]
        | (t', us) :: gs =>
          if t₀ = t' then (t₀, u :: us) :: gs else (t₀, [u]) :: (t', us) :: gs
      from rfl]
    cases hg : groupByTime rest with
    | nil =>
      rw [hg] at ih
      simp only [List.filter_nil, List.foldr_nil] at ih
      simp only [List.filter_cons]
      by_cases h : t₀ = t <;> simp [h, ← ih]
    | cons g gs =>
      obtain ⟨t', us⟩ := g
      rw [hg] at ih
      simp only [List.filter_cons] at ih
      show List.foldr (fun g acc => g.2 ++ acc) []
          (List.filter (fun g => decide (g.1 = t))
            (if t₀ = t' then (t₀, u :: us) :: gs else (t₀, [u]) :: (t', us) :: gs))
        = List.map Prod.snd (List.filter (fun e => decide (e.1 = t)) ((t₀, u) :: rest))
      by_cases h : t₀ = t'
      · rw [if_pos h]
        subst h
        simp only [List.filter_cons]
        by_cases h2 : t₀ = t <;> simp_all
      · rw [if_neg h]
        simp only [List.filter_cons]
        by_cases h2 : t₀ = t <;> simp_all

/-- Solutions of `k * s = t` inside `range' a m`: the single multiplier
`t / s` when `s` divides `t` and the quotient is in range. -/
theorem filter_range'_mul (s t : Nat) (hs : 0 < s) :
    ∀ (m a : Nat),
      ((List.range' a m).filter fun k => decide (k * s = t))
        = if s ∣ t ∧ a ≤ t / s ∧ t / s < a + m then [t / s] else []
  | 0, a => by
    rw [if_neg fun hc => by omega]
    rfl
  | m + 1, a => by
    rw [List.range'_succ, List.filter_cons, filter_range'_mul s t hs m (a + 1)]
    by_cases h : a * s = t
    · have hdvd : s ∣ t := ⟨a, by rw [← h]; exact Nat.mul_comm a s⟩
      have hq : t / s = a := by
        rw [← h]
        exact Nat.mul_div_cancel a hs
      rw [if_pos (by simp [h]), if_neg fun hc => by omega,
        if_pos ⟨hdvd, by omega, by omega⟩, hq]
    · rw [if_neg (by simp [h])]
      refine if_congr ⟨fun hc => ⟨hc.1, by omega, by omega⟩, fun hc => ?_⟩ rfl rfl
      obtain ⟨hdvd, h1, h2⟩ := hc
      have hne : t / s ≠ a := fun heq => by
        rw [← heq, Nat.div_mul_cancel hdvd] at h
        exact h rfl
      exact ⟨hdvd, by omega, by omega⟩

/-- The same with both sides of the equation shifted by the start
instant, as the deadlines `T0 + k * s = T0 + t` appear in the iterator
expansion. -/
theorem filter_range'_add_mul (T0 s t : Nat) (hs : 0 < s) (m a : Nat) :
    ((List.range' a m).filter fun k => decide (T0 + k * s = T0 + t))
      = if s ∣ t ∧ a ≤ t / s ∧ t / s < a + m then [t / s] else [] := by
  have hcong : (fun k => decide (T0 + k * s = T0 + t))
      = fun k => decide (k * s = t) := by
    funext k
    simp only [decide_eq_decide]
    omega
  rw [hcong, filter_range'_mul s t hs m a]

theorem sortP_sorted (l : List (Nat × String)) : (sortP l).Sorted pairLe :=
  List.sorted_insertionSort pairLe l

theorem sortP_perm (l : List (Nat × String)) : (sortP l).Perm l :=
  List.perm_insertionSort pairLe l

/-- Commands contributed at exact offset `t` by one configuration line in
the full-cycle expansion: its URL if its interval divides `t`, nothing
otherwise. -/
theorem filter_progExpansionAux (dur t : Nat) (ht0 : 0 < t) (htd : t ≤ dur) :
    ∀ (cfg : List (Nat × String)), (∀ c ∈ cfg, 0 < c.1) →
      (((progExpansionAux dur cfg).filter fun e => decide (e.1 = t)).map Prod.snd)
        = ((cfg.filter fun c => decide (c.1 ∣ t)).map Prod.snd)
  | [], _ => rfl
  | (s, url) :: cfg, hpos => by
    have hs : 0 < s := hpos (s, url) (List.mem_cons_self _ _)
    have ih := filter_progExpansionAux dur t ht0 htd cfg
      fun c hc => hpos c (List.mem_cons_of_mem _ hc)
    have hhead : ((((List.range' 1 (dur / s)).map fun n => (n * s, url)).filter
        fun e => decide (e.1 = t)).map Prod.snd)
        = if s ∣ t then [url] else [] := by
      rw [List.filter_map,
        show ((fun e : Nat × String => decide (e.1 = t)) ∘ fun n => (n * s, url))
          = fun k => decide (k * s = t) from rfl,
        filter_range'_mul s t hs (dur / s) 1]
      by_cases hdvd : s ∣ t
      · have h1 : 1 ≤ t / s := (Nat.one_le_div_iff hs).mpr (Nat.le_of_dvd ht0 hdvd)
        have h3 : t / s ≤ dur / s := Nat.div_le_div_right htd
        rw [if_pos ⟨hdvd, h1, by omega⟩, if_pos hdvd]
        rfl
      · rw [if_neg fun hc => hdvd hc.1, if_neg hdvd]
        rfl
    show ((((List.range' 1 (dur / s)).map fun n => (n * s, url))
          ++ progExpansionAux dur cfg).filter fun e => decide (e.1 = t)).map Prod.snd
        = (((s, url) :: cfg).filter fun c => decide (c.1 ∣ t)).map Prod.snd
    rw [List.filter_append, List.map_append, ih, hhead, List.filter_cons]
    by_cases hdvd : s ∣ t
    · rw [if_pos hdvd, if_pos (by simp [hdvd])]
      rfl
    · rw [if_neg hdvd, if_neg (by simp [hdvd])]
      rfl

/-- Commands contributed at exact deadline `T0 + t` by one job's window
expansion. -/
theorem filter_jobMultiples_at (T0 t : Nat) (j : Job) (hpos : 0 < j.delay)
    (ht0 : 0 < t) :
    (((jobMultiples T0 t j).filter fun e => decide (e.1 = T0 + t)).map
        fun e => e.2.command)
      = if j.delay ∣ t then [j.command] else [] := by
  unfold jobMultiples
  rw [List.filter_map,
    show ((fun e : Entry => decide (e.1 = T0 + t)) ∘ fun k => (T0 + k * j.delay, j))
      = fun k => decide (T0 + k * j.delay = T0 + t) from rfl,
    filter_range'_add_mul T0 j.delay t hpos (t / j.delay) 1]
  by_cases hdvd : j.delay ∣ t
  · have h1 : 1 ≤ t / j.delay := (Nat.one_le_div_iff hpos).mpr (Nat.le_of_dvd ht0 hdvd)
    rw [if_pos ⟨hdvd, h1, by omega⟩, if_pos hdvd]
    rfl
  · rw [if_neg fun hc => hdvd hc.1, if_neg hdvd]
    rfl

theorem filter_expandWindow_flatten (T0 t : Nat) :
    ∀ (jobs : List Job), (∀ j ∈ jobs, 0 < j.delay) → 0 < t →
      ((((jobs.map (jobMultiples T0 t)).flatten).filter
          fun e => decide (e.1 = T0 + t)).map fun e => e.2.command)
        = ((jobs.filter fun j => decide (j.delay ∣ t)).map Job.command)
  | [], _, _ => rfl
  | j :: jobs, hpos, ht0 => by
    have ih := filter_expandWindow_flatten T0 t jobs
      (fun x hx => hpos x (List.mem_cons_of_mem _ hx)) ht0
    show (((jobMultiples T0 t j ++ (jobs.map (jobMultiples T0 t)).flatten).filter
          fun e => decide (e.1 = T0 + t)).map fun e => e.2.command)
        = (((j :: jobs).filter fun x => decide (x.delay ∣ t)).map Job.command)
    rw [List.filter_append, List.map_append, ih,
      filter_jobMultiples_at T0 t j (hpos j (List.mem_cons_self _ _)) ht0,
      List.filter_cons]
    by_cases hdvd : j.delay ∣ t
    · rw [if_pos hdvd, if_pos (by simp [hdvd])]
      rfl
    · rw [if_neg hdvd, if_neg (by simp [hdvd])]
      rfl

/-- What the grouped programme flushes at offset `t` is the flattening of
the groups whose absolute instant is `t`, i.e. the URLs of the sorted
expansion at timestamp `t`. -/
theorem dispatchedAt_compute_schedule (config : List (Nat × String)) (t : Nat) :
    dispatchedAt t (compute_schedule config)
      = ((sortP (progExpansion config)).filter fun e => decide (e.1 = t)).map
          Prod.snd := by
  have hsorted : ((sortP (progExpansion config)).map Prod.fst).Sorted (· ≤ ·) :=
    List.Pairwise.map Prod.fst (fun a b hab => by rcases hab with h | ⟨h, _⟩ <;> omega)
      (sortP_sorted (progExpansion config))
  have hkeys : ((groupByTime (sortP (progExpansion config))).map Prod.fst).Sorted
      (· ≤ ·) :=
    List.Pairwise.sublist (groupByTime_keys_sublist _) hsorted
  have hchain : List.Chain (· ≤ ·) 0
      ((groupByTime (sortP (progExpansion config))).map Prod.fst) := by
    rw [List.chain_iff_pairwise]
    exact List.Pairwise.cons (fun a _ => Nat.zero_le a) hkeys
  unfold dispatchedAt compute_schedule
  rw [absTimes_deltaEncode _ 0 hchain]
  exact groupByTime_filter_foldr t _

/-- C2: dispatch-content equivalence of the repository's two scheduler
implementations.  For every configuration with positive intervals and
every offset `0 < t` within one full cycle, the multiset of commands the
grouped programme of `compute_schedule` flushes at offset `t` equals the
multiset of commands the `ScheduleIterator` started at `T0` emits with
deadline `T0 + t`.  The grouping difference is visible in the types: the
programme flushes a whole `List String` per instant while the iterator
yields entries one at a time. -/
theorem grouped_programme_matches_iterator (config : List (Nat × String))
    (hpos : ∀ c ∈ config, 0 < c.1) (t : Nat) (ht0 : 0 < t)
    (htd : t ≤ progDur config) (T0 n : Nat)
    (hn : (expandWindow T0 t (configJobs config)).length ≤ n) :
    (dispatchedAt t (compute_schedule config)).Perm
      (((iterOut (scheduleInit T0 (configJobs config)) n).filter
          fun e => decide (e.1 = T0 + t)).map fun e => e.2.command) := by
  have hjpos : ∀ j ∈ configJobs config, 0 < j.delay := by
    intro j hj
    obtain ⟨c, hc, rfl⟩ := List.mem_map.mp hj
    exact hpos c hc
  have hwin := scheduleInit_window T0 t (configJobs config) hjpos n hn
  have hiter : (expandWindow T0 t (configJobs config)).filter
        (fun e => decide (e.1 = T0 + t))
      = (iterOut (scheduleInit T0 (configJobs config)) n).filter
        fun e => decide (e.1 = T0 + t) := by
    rw [← hwin, List.filter_filter]
    refine List.filter_congr fun x _ => ?_
    by_cases h : x.1 = T0 + t <;> simp [h]
  have hperm1 : ((expandWindow T0 t (configJobs config)).filter
        fun e => decide (e.1 = T0 + t)).Perm
      ((((configJobs config).map (jobMultiples T0 t)).flatten).filter
        fun e => decide (e.1 = T0 + t)) :=
    (sortE_perm _).filter _
  have h2 := filter_expandWindow_flatten T0 t (configJobs config) hjpos ht0
  have h3 : (((configJobs config).filter fun j => decide (j.delay ∣ t)).map
        Job.command)
      = ((config.filter fun c => decide (c.1 ∣ t)).map Prod.snd) := by
    unfold configJobs
    rw [List.filter_map, List.map_map]
    rfl
  have h4 := dispatchedAt_compute_schedule config t
  have hperm2 : (((sortP (progExpansion config)).filter
        fun e => decide (e.1 = t)).map Prod.snd).Perm
      (((progExpansion config).filter fun e => decide (e.1 = t)).map Prod.snd) :=
    ((sortP_perm _).filter _).map _
  have h5 := filter_progExpansionAux (progDur config) t ht0 htd config hpos
  have hL : (dispatchedAt t (compute_schedule config)).Perm
      ((config.filter fun c => decide (c.1 ∣ t)).map Prod.snd) := by
    rw [h4]
    exact h5 ▸ hperm2
  have hR : (((iterOut (scheduleInit T0 (configJobs config)) n).filter
        fun e => decide (e.1 = T0 + t)).map fun e => e.2.command).Perm
      ((config.filter fun c => decide (c.1 ∣ t)).map Prod.snd) := by
    rw [← hiter]
    exact h3 ▸ h2 ▸ hperm1.map fun e => e.2.command
  exact hL.trans hR.symm

theorem grouped_programme_matches_iterator_witness :
    (∀ c ∈ [((2 : Nat), "a"), ((4 : Nat), "b")], 0 < c.1)
      ∧ (0 : Nat) < 4
      ∧ (4 : Nat) ≤ progDur [((2 : Nat), "a"), ((4 : Nat), "b")]
      ∧ (expandWindow 0 4 (configJobs [((2 : Nat), "a"), ((4 : Nat), "b")])).length ≤ 3
      ∧ (dispatchedAt 4 (compute_schedule [((2 : Nat), "a"), ((4 : Nat), "b")])).Perm
        (((iterOut (scheduleInit 0 (configJobs [((2 : Nat), "a"), ((4 : Nat), "b")])) 3).filter
            fun e => decide (e.1 = 0 + 4)).map fun e => e.2.command) :=
  ⟨by decide, by decide, by decide, by decide,
    grouped_programme_matches_iterator [((2 : Nat), "a"), ((4 : Nat), "b")]
      (by decide) 4 (by decide) (by decide) 0 3 (by decide)⟩

/-! ## Configuration parsing (`parse_config_stream` in `__init__.py`)

Python string primitives are modelled at the character-list level:
`str.strip`, `str.split(",", 2)` and `int(...)` become structural
functions on `List Char` so that concrete runs evaluate inside the
kernel. -/

/-- Whitespace for the purposes of `str.strip` (the ASCII cases). -/
def isSpaceChar (c : Char) : Bool :=
  c == ' ' || c == '\t' || c == '\n' || c == '\r'

/-- Model of Python `str.strip()`. -/
def trimChars (l : List Char) : List Char :=
  ((l.dropWhile isSpaceChar).reverse.dropWhile isSpaceChar).reverse

/-- Split a character list at every comma (no split limit yet). -/
def splitOnComma : List Char → List (List Char)
  | [] => [[]]
  | c :: cs =>
    if c = ',' then [] :: splitOnComma cs
    else
      match splitOnComma cs with
      | [] => [[c]]
      | p :: ps => (c :: p) :: ps

/-- Re-join parts with commas (the tail `split` keeps un-split). -/
def joinWithComma : List (List Char) → List Char
  | [] => []
  | [p] => p
  | p :: ps => p ++ ',' :: joinWithComma ps

/-- Model of Python `line.split(",", 2)`: at most two splits, the
remainder staying joined. -/
def splitMax2 (l : List Char) : List (List Char) :=
  match splitOnComma l with
  | p0 :: p1 :: p2 :: rest => [p0, p1, joinWithComma (p2 :: rest)]
  | parts => parts

/-- Value of an ASCII digit. -/
def digitVal (c : Char) : Option Nat :=
  if 48 ≤ c.toNat ∧ c.toNat ≤ 57 then some (c.toNat - 48) else none

def parseDigits (acc : Nat) : List Char → Option Nat
  | [] => some acc
  | c :: cs =>
    match digitVal c with
    | some v => parseDigits (acc * 10 + v) cs
    | none => none

/-- Model of Python `int(...)` on an already-stripped string: optional
sign followed by at least one decimal digit (underscore and non-ASCII
digit forms are not modelled). -/
def parseInt : List Char → Option Int
  | [] => none
  | c :: cs =>
    if c = '-' then
      if cs = [] then none else (parseDigits 0 cs).map fun n => -(n : Int)
    else if c = '+' then
      if cs = [] then none else (parseDigits 0 cs).map fun n => (n : Int)
    else (parseDigits 0 (c :: cs)).map fun n => (n : Int)

/-- One line of `parse_config_stream` without position bookkeeping:
`line.strip()`, `split(",", 2)`, unpack into exactly two names, parse the
integer, strip the url.  `none` models the `ValueError` branch. -/
def parseEntry (line : List Char) : Option (Int × List Char) :=
  match splitMax2 (trimChars line) with
  | [seconds, url] =>
    match parseInt (trimChars seconds) with
    | some n => some (n, trimChars url)
    | none => none
  | _ => none

/-- Payload of the `ValueError` that `parse_config_stream` raises:
`f"Expected '<num>,<url>' on line {ln}: '{line}'"` interpolates the
`enumerate` index `ln` and the stripped line. -/
structure ConfigError where
  lineNo : Nat
  content : List Char
deriving DecidableEq, Repr

/-- The order `sorted(config)` uses on the parsed `(int, url)` pairs. -/
def intPairLe (a b : Int × List Char) : Prop :=
  a.1 < b.1 ∨ (a.1 = b.1 ∧ (a.2 < b.2 ∨ a.2 = b.2))

instance : DecidableRel intPairLe := fun a b => by
  unfold intPairLe; infer_instance

/-- Python `sorted` on parsed configuration entries. -/
def sortC (l : List (Int × List Char)) : List (Int × List Char) :=
  List.insertionSort intPairLe l

/-- The `enumerate` loop of `parse_config_stream`: parse each line,
failing at the first malformed one with its index and stripped content. -/
def parseLines (ln : Nat) : List (List Char) → Except ConfigError (List (Int × List Char))
  | [] => Except.ok []
  | line :: rest =>
    match parseEntry line with
    | none => Except.error ⟨ln, trimChars line⟩
    | some entry =>
      match parseLines (ln + 1) rest with
      | Except.error e => Except.error e
      | Except.ok entries => Except.ok (entry :: entries)

/-- Model of `parse_config_stream`: parse every line, sort the result. -/
def parse_config_stream (lines : List (List Char)) :
    Except ConfigError (List (Int × List Char)) :=
  match parseLines 0 lines with
  | Except.error e => Except.error e
  | Except.ok entries => Except.ok (sortC entries)

theorem parseLines_first_error (bad : List Char) (rest : List (List Char))
    (hbad : parseEntry bad = none) :
    ∀ (good : List (List Char)) (ln : Nat), (∀ l ∈ good, (parseEntry l).isSome) →
      parseLines ln (good ++ bad :: rest)
        = Except.error ⟨ln + good.length, trimChars bad⟩
  | [], ln, _ => by
    show parseLines ln (bad :: rest) = _
    unfold parseLines
    rw [hbad]
    simp
  | line :: good, ln, hgood => by
    obtain ⟨e, he⟩ := Option.isSome_iff_exists.mp
      (hgood line (List.mem_cons_self _ _))
    show parseLines ln (line :: (good ++ bad :: rest)) = _
    unfold parseLines
    rw [he, parseLines_first_error bad rest hbad good (ln + 1)
      fun l hl => hgood l (List.mem_cons_of_mem _ hl)]
    have harith : ln + 1 + good.length = ln + (line :: good).length := by
      simp only [List.length_cons]
      omega
    rw [harith]

/-- C6 counterexample: the second physical line (1-based number 2) is
malformed, yet the raised error names line 1 — `enumerate` starts at 0 —
so the error does not carry the 1-based line number; the content it
names is the stripped line. -/
theorem parse_error_line_number_zero_based :
    parse_config_stream ["10,http:u".data, " oops ".data]
        = Except.error ⟨1, "oops".data⟩
      ∧ (1 : Nat) ≠ 2 :=
  ⟨rfl, by decide⟩

/-- C6 (amended): on input containing a malformed line, parsing fails
with a fatal error (no configuration is produced) whose payload names
the 0-based `enumerate` index of the first malformed line and that
line's whitespace-stripped content. -/
theorem parse_error_names_line (good : List (List Char)) (bad : List Char)
    (rest : List (List Char)) (hgood : ∀ l ∈ good, (parseEntry l).isSome)
    (hbad : parseEntry bad = none) :
    parse_config_stream (good ++ bad :: rest)
      = Except.error ⟨good.length, trimChars bad⟩ := by
  unfold parse_config_stream
  rw [parseLines_first_error bad rest hbad good 0 hgood]
  simp

theorem parse_error_names_line_witness :
    (∀ l ∈ ["10,a".data], (parseEntry l).isSome)
      ∧ parseEntry "oops".data = none
      ∧ parse_config_stream (["10,a".data] ++ "oops".data :: ["3,b".data])
        = Except.error ⟨["10,a".data].length, trimChars "oops".data⟩ :=
  ⟨by decide, by decide,
    parse_error_names_line ["10,a".data] "oops".data ["3,b".data]
      (by decide) (by decide)⟩

/-! ## Worker loop (`worker.py`) -/

/-- The values `curl.getinfo` yields for one completed request.  Python
carries floats for the phase timings; no arithmetic is performed on
them, so they are modelled as discrete values. -/
structure ProbeResult where
  code : Int
  namelookup : Nat
  connect : Nat
  appconnect : Nat
  pretransfer : Nat
  starttransfer : Nat
  total : Nat
deriving DecidableEq, Repr

/-- Model of `Report` from `worker.py`. -/
structure Report where
  url : String
  code : Int
  timestamp : Nat
  namelookup : Nat
  connect : Nat
  appconnect : Nat
  pretransfer : Nat
  starttransfer : Nat
  total : Nat
deriving DecidableEq, Repr

/-- The report the worker constructs on probe success: `timestamp` is the
`datetime.now()` value `now` captured at the top of the iteration, the
code and phase timings come from the probe. -/
def mkReport (req : String) (now : Nat) (r : ProbeResult) : Report :=
  ⟨req, r.code, now, r.namelookup, r.connect, r.appconnect, r.pretransfer,
    r.starttransfer, r.total⟩

/-- Observable outcome of running the worker loop. -/
structure WorkerRun where
  published : List (String × Report)
  requested : List String
  flushCalls : Nat
  exited : Bool
deriving DecidableEq, Repr

/-- Model of `worker.main`'s loop.  `shutdown i` is the shared flag at
its `i`-th read; `clock i` is the `datetime.now()` value of iteration
`i` (read once per non-shutdown iteration, just before the queue pop);
`probe` is the pycurl collaborator, `Except.error` standing for
`pycurl.error`; the queue holds pending requests in FIFO order, a pop on
the empty queue raising `queue.Empty` (the loop then just continues).
On observing the flag the loop exits and calls `producer.flush()` once.
`fuel` bounds how many iterations are modelled: when it runs out the
loop is still running (`exited = false`, no flush yet). -/
def workerLoop (shutdown : Nat → Bool) (clock : Nat → Nat)
    (probe : String → Except String ProbeResult) :
    Nat → Nat → List String → WorkerRun
  | 0, _, _ => ⟨[], [], 0, false⟩
  | fuel + 1, i, queue =>
    if shutdown i then ⟨[], [], 1, true⟩
    else
      match queue with
      | [] => workerLoop shutdown clock probe fuel (i + 1) []
      | req :: qs =>
        match probe req with
        | Except.ok res =>
          let rest := workerLoop shutdown clock probe fuel (i + 1) qs
          ⟨(req, mkReport req (clock i) res) :: rest.published,
            req :: rest.requested, rest.flushCalls, rest.exited⟩
        | Except.error _ =>
          let rest := workerLoop shutdown clock probe fuel (i + 1) qs
          ⟨rest.published, req :: rest.requested, rest.flushCalls, rest.exited⟩

/-- The `(key, Report)` pairs the worker is specified to publish for a
queue consumed from iteration `i` on: one pair per successfully probed
request, in FIFO order, each timestamped with the clock value of the
iteration that dequeued it and carrying the probe's code and timings. -/
def expectedReports (clock : Nat → Nat)
    (probe : String → Except String ProbeResult) :
    Nat → List String → List (String × Report)
  | _, [] => []
  | i, req :: qs =>
    match probe req with
    | Except.ok res =>
      (req, mkReport req (clock i) res) :: expectedReports clock probe (i + 1) qs
    | Except.error _ => expectedReports clock probe (i + 1) qs

section WorkerProofs

variable (shutdown : Nat → Bool) (clock : Nat → Nat)
variable (probe : String → Except String ProbeResult)

theorem workerLoop_nil (hsd : ∀ i, shutdown i = false) :
    ∀ (fuel i : Nat), workerLoop shutdown clock probe fuel i [] = ⟨[], [], 0, false⟩
  | 0, _ => rfl
  | fuel + 1, i => by
    have h := workerLoop_nil hsd fuel (i + 1)
    simp [workerLoop, hsd i, h]

/-- Full characterisation of the loop while the shutdown flag stays unset
and fuel covers the queue: every request is dequeued in FIFO order, the
published reports are exactly `expectedReports`, and the loop neither
exits nor flushes. -/
theorem workerLoop_run (hsd : ∀ i, shutdown i = false) :
    ∀ (q : List String) (fuel i0 : Nat), q.length ≤ fuel →
      workerLoop shutdown clock probe fuel i0 q
        = ⟨expectedReports clock probe i0 q, q, 0, false⟩
  | [], fuel, i0, _ => by
    rw [workerLoop_nil shutdown clock probe hsd fuel i0]
    rfl
  | _ :: _, 0, _, hlen => absurd hlen (by simp)
  | req :: qs, fuel + 1, i0, hlen => by
    have ih := workerLoop_run hsd qs fuel (i0 + 1) (by simpa using hlen)
    cases hp : probe req with
    | ok res => simp [workerLoop, expectedReports, hsd i0, hp, ih]
    | error e => simp [workerLoop, expectedReports, hsd i0, hp, ih]

/-- C7: the published Report's `timestamp` (`issued_at`) is the
wall-clock value read at the top of the iteration that dequeued the item
— captured before the probe executes — and the Report forwarded to the
sink pairs that instant with the status code and phase timings the probe
returned; it never depends on when the probe completed. -/
theorem worker_report_issued_at_dequeue
    (hsd : ∀ i, shutdown i = false) (q : List String) (fuel i0 : Nat)
    (hfuel : q.length ≤ fuel) :
    (workerLoop shutdown clock probe fuel i0 q).published
      = expectedReports clock probe i0 q := by
  rw [workerLoop_run shutdown clock probe hsd q fuel i0 hfuel]

theorem expectedReports_split_error {bad msg : String}
    (hbad : probe bad = Except.error msg) :
    ∀ (pre : List String) (i0 : Nat) (post : List String),
      expectedReports clock probe i0 (pre ++ bad :: post)
        = expectedReports clock probe i0 pre
          ++ expectedReports clock probe (i0 + pre.length + 1) post
  | [], i0, post => by
    simp [expectedReports, hbad]
  | req :: pre, i0, post => by
    have ih := expectedReports_split_error hbad pre (i0 + 1) post
    have harith : i0 + 1 + pre.length + 1 = i0 + (pre.length + 1) + 1 := by
      omega
    cases hp : probe req with
    | ok res => simp [expectedReports, hp, ih, harith]
    | error e => simp [expectedReports, hp, ih, harith]

/-- C8: a probe failure (`pycurl.error`, the spec's `ProbeError`) on one
dequeued item is recovered locally inside the worker: the failing item is
dequeued exactly where it stood in FIFO order and then dropped — no
report is published for it and it is not re-enqueued — the loop goes on
to process everything after it, and the failure neither exits the loop
nor triggers a flush: the pool is not terminated. -/
theorem worker_probe_failure_recovered (hsd : ∀ i, shutdown i = false)
    (pre post : List String) (bad msg : String)
    (hbad : probe bad = Except.error msg) (fuel i0 : Nat)
    (hfuel : (pre ++ bad :: post).length ≤ fuel) :
    ((workerLoop shutdown clock probe fuel i0 (pre ++ bad :: post)).requested
        = pre ++ bad :: post)
      ∧ ((workerLoop shutdown clock probe fuel i0 (pre ++ bad :: post)).published
          = expectedReports clock probe i0 pre
            ++ expectedReports clock probe (i0 + pre.length + 1) post)
      ∧ ((workerLoop shutdown clock probe fuel i0 (pre ++ bad :: post)).exited
          = false)
      ∧ (workerLoop shutdown clock probe fuel i0 (pre ++ bad :: post)).flushCalls
          = 0 := by
  rw [workerLoop_run shutdown clock probe hsd _ fuel i0 hfuel]
  exact ⟨rfl, expectedReports_split_error clock probe hbad pre i0 post, rfl, rfl⟩

/-- Discrete-time skeleton of C9 (the one-second wall-clock bound itself
is a real-time property of `queue.get(timeout=1)` and lies outside this
model): once the monotone shutdown flag is set, the next flag check
exits the loop — nothing further is dequeued or probed, at most one item
per pre-observation iteration was dequeued — and `producer.flush()` runs
exactly once on the way out. -/
theorem worker_shutdown_discrete (k : Nat) (hk : shutdown k = true)
    (hmono : ∀ i j, i ≤ j → shutdown i = true → shutdown j = true) :
    ∀ (fuel i0 : Nat) (q : List String), i0 ≤ k → k < i0 + fuel →
      ((workerLoop shutdown clock probe fuel i0 q).exited = true)
        ∧ ((workerLoop shutdown clock probe fuel i0 q).flushCalls = 1)
        ∧ ((workerLoop shutdown clock probe fuel i0 q).requested.length ≤ k - i0)
  | 0, i0, _, _, hlt => absurd hlt (by omega)
  | fuel + 1, i0, q, hle, hlt => by
    by_cases hsd : shutdown i0 = true
    · rw [show workerLoop shutdown clock probe (fuel + 1) i0 q = ⟨[], [], 1, true⟩
        from by simp [workerLoop, hsd]]
      exact ⟨rfl, rfl, by simp⟩
    · have hsd' : shutdown i0 = false := by
        cases h : shutdown i0
        · rfl
        · exact absurd h hsd
      have hi0k : i0 < k := by
        rcases Nat.lt_or_ge i0 k with h | h
        · exact h
        · have h2 : i0 = k := by omega
          rw [h2, hk] at hsd'
          exact absurd hsd' (by simp)
      cases q with
      | nil =>
        have ih := worker_shutdown_discrete k hk hmono fuel (i0 + 1) []
          (by omega) (by omega)
        rw [show workerLoop shutdown clock probe (fuel + 1) i0 []
            = workerLoop shutdown clock probe fuel (i0 + 1) [] from by
          simp [workerLoop, hsd']]
        exact ⟨ih.1, ih.2.1, by omega⟩
      | cons req qs =>
        have ih := worker_shutdown_discrete k hk hmono fuel (i0 + 1) qs
          (by omega) (by omega)
        have h2 := ih.2.2
        cases hp : probe req with
        | ok res =>
          rw [show workerLoop shutdown clock probe (fuel + 1) i0 (req :: qs)
              = ⟨(req, mkReport req (clock i0) res)
                    :: (workerLoop shutdown clock probe fuel (i0 + 1) qs).published,
                  req :: (workerLoop shutdown clock probe fuel (i0 + 1) qs).requested,
                  (workerLoop shutdown clock probe fuel (i0 + 1) qs).flushCalls,
                  (workerLoop shutdown clock probe fuel (i0 + 1) qs).exited⟩ from by
            simp [workerLoop, hsd', hp]]
          refine ⟨ih.1, ih.2.1, ?_⟩
          simp only [List.length_cons]
          omega
        | error e =>
          rw [show workerLoop shutdown clock probe (fuel + 1) i0 (req :: qs)
              = ⟨(workerLoop shutdown clock probe fuel (i0 + 1) qs).published,
                  req :: (workerLoop shutdown clock probe fuel (i0 + 1) qs).requested,
                  (workerLoop shutdown clock probe fuel (i0 + 1) qs).flushCalls,
                  (workerLoop shutdown clock probe fuel (i0 + 1) qs).exited⟩ from by
            simp [workerLoop, hsd', hp]]
          refine ⟨ih.1, ih.2.1, ?_⟩
          simp only [List.length_cons]
          omega

end WorkerProofs

theorem worker_report_issued_at_dequeue_witness :
    (∀ i : Nat, (fun _ : Nat => false) i = false)
      ∧ (["u1", "u2"] : List String).length ≤ 5
      ∧ (workerLoop (fun _ => false) (fun i => 100 + i)
          (fun u => Except.ok ⟨200, 1, 2, 3, 4, 5, u.length⟩) 5 0
          ["u1", "u2"]).published
        = expectedReports (fun i => 100 + i)
            (fun u => Except.ok ⟨200, 1, 2, 3, 4, 5, u.length⟩) 0 ["u1", "u2"] :=
  ⟨fun _ => rfl, by decide,
    worker_report_issued_at_dequeue (fun _ => false) (fun i => 100 + i)
      (fun u => Except.ok ⟨200, 1, 2, 3, 4, 5, u.length⟩) (fun _ => rfl)
      ["u1", "u2"] 5 0 (by decide)⟩

theorem worker_probe_failure_recovered_witness :
    ((fun u : String => if u = "bad"
          then (Except.error "boom" : Except String ProbeResult)
          else Except.ok ⟨200, 1, 2, 3, 4, 5, 6⟩) "bad" = Except.error "boom")
      ∧ (["u1"] ++ "bad" :: ["u2"]).length ≤ 4
      ∧ ((workerLoop (fun _ => false) (fun i => 50 + i)
          (fun u => if u = "bad" then Except.error "boom"
            else Except.ok ⟨200, 1, 2, 3, 4, 5, 6⟩) 4 0
          (["u1"] ++ "bad" :: ["u2"])).requested
        = ["u1"] ++ "bad" :: ["u2"]) :=
  ⟨rfl, by decide,
    (worker_probe_failure_recovered (fun _ => false) (fun i => 50 + i)
      (fun u => if u = "bad" then Except.error "boom"
        else Except.ok ⟨200, 1, 2, 3, 4, 5, 6⟩) (fun _ => rfl) ["u1"] ["u2"]
      "bad" "boom" rfl 4 0 (by decide)).1⟩

end LatencyLogger
